import Mathlib

/-!
Verification of the borges producer/consumer pipeline.

The development shallowly embeds the Go sources:
  producer.go          -- Producer lifecycle and publish loop
  cli/borges/consumer.go -- consumer command wiring, storage backend selection
and a spec-level model of the locking service used by the consumer command.
-/

namespace Borges

/-- Errors are opaque values in the Go code; a string message suffices. -/
abbrev Err := String

/-- A Job as used by producer.go: it is constructed as a record whose
RepositoryID field receives the process-global uint64 counter.  uint64 is
modelled as Nat reduced modulo 2^64 where the counter is incremented. -/
structure Job where
  repositoryID : Nat
deriving DecidableEq, Repr

/-- Observable actions performed by one iteration of the publish loop of
producer.go.  The Notifiers record of producer.go contains a single field
Done; there is no QueueError field, hence no queue-error action exists. -/
inductive Action where
  | encode (j : Job)
  | publish (j : Job)
  | done (j : Job) (e : Option Err)
deriving DecidableEq, Repr

/-- Whether an action is an invocation of the Done notifier. -/
def Action.isDoneCall : Action → Bool
  | Action.done _ _ => true
  | _ => false

/-- Embedding of Producer.notifyDone: if the Done notifier is absent the
call returns immediately, otherwise the notifier is invoked with exactly
the job and its error. -/
def notifyDone (donePresent : Bool) (j : Job) (e : Option Err) : List Action :=
  if donePresent then [Action.done j e] else []

/-- One iteration of the publish loop body of Producer.start, after the
running check.  The results of the external collaborators are passed as
oracles: src is the result of p.next, encRes the result of job.Encode
and pubRes the result of p.queue.Publish.  On a source error the Go code
executes a bare continue (the branch is marked TODO error handling), so
the iteration performs no action at all. -/
def loopIter (donePresent : Bool) (src : Except Err Job)
    (encRes : Option Err) (pubRes : Option Err) : List Action :=
  match src with
  | Except.error _ => []
  | Except.ok j =>
    match encRes with
    | some e => Action.encode j :: notifyDone donePresent j (some e)
    | none =>
      match pubRes with
      | some e => Action.encode j :: Action.publish j :: notifyDone donePresent j (some e)
      | none => Action.encode j :: Action.publish j :: notifyDone donePresent j none

/-- Modulus of the Go uint64 type. -/
def U64 : Nat := 2 ^ 64

/-- Embedding of Producer.next: increments the process-global uint64
counter n and returns the new counter value together with a Job whose
RepositoryID is that value; the returned error is always nil, modelled
as the result always being ok. -/
def next (n : Nat) : Nat × Except Err Job :=
  let n2 := (n + 1) % U64
  (n2, Except.ok (Job.mk n2))

/-! Lifecycle of the Producer (producer.go).

The Producer holds a running flag, two sync.Once guards (startOnce for
Start, stopOnce for Stop) and a sync.WaitGroup.  Start runs p.start under
startOnce; start sets running, adds itself to the wait group, loops while
running and leaves the wait group when the loop exits.  Stop runs p.stop
under stopOnce; stop clears running and waits on the wait group.  The
embedding is an interleaving transition system: each caller of Start or
Stop is a thread with an explicit phase, and every atomic Go action is one
event. -/

/-- Phase of a sync.Once guard: idle (never entered), busy (a caller is
executing the guarded body; other callers of Do block), done (the body
has completed; further Do calls return at once). -/
inductive OncePhase where
  | idle
  | busy
  | done
deriving DecidableEq, Repr

/-- Phase of a thread that calls Start: it has not called yet, it is
blocked in startOnce.Do while another caller runs the body, it is running
the publish loop itself, or its call has returned. -/
inductive SPhase where
  | notCalled
  | waitingOnce
  | inLoop
  | returned
deriving DecidableEq, Repr

/-- Phase of a thread that calls Stop: it has not called yet, it is
blocked in stopOnce.Do while another caller runs the body, it is executing
the stop body and waiting on the wait group, or its call has returned. -/
inductive TPhase where
  | notCalled
  | waitingOnce
  | waitingWg
  | returned
deriving DecidableEq, Repr

/-- Global state of one Producer together with the threads calling Start
and Stop.  startBodies and stopBodies count how often the respective
sync.Once body has executed (ghost instrumentation). -/
structure PState where
  running : Bool
  startOnce : OncePhase
  stopOnce : OncePhase
  wg : Nat
  starters : List SPhase
  stoppers : List TPhase
  startBodies : Nat
  stopBodies : Nat
deriving DecidableEq, Repr

/-- Embedding of Producer.IsRunning: reads the running flag. -/
def IsRunning (s : PState) : Bool := s.running

/-- Atomic events of the lifecycle system, each tagged with the index of
the thread performing it. -/
inductive Ev where
  | startCall (i : Nat)
  | startRet (i : Nat)
  | loopIterate (i : Nat)
  | loopExit (i : Nat)
  | stopCall (i : Nat)
  | stopRet (i : Nat)
  | stopWgDone (i : Nat)
deriving DecidableEq, Repr

/-- Small-step semantics.  startCall enters startOnce.Do: if the once is
idle the caller runs the body of Producer.start (running becomes true, the
wait group is incremented, the caller enters the loop); if busy it blocks;
if done it returns immediately.  loopIterate is one iteration of the loop
while running holds (its queue effects are modelled by loopIter above and
do not touch the lifecycle state).  loopExit is the loop observing that
running is false: the loop breaks, the deferred wg.Done runs and the once
becomes done.  stopCall enters stopOnce.Do symmetrically: an idle once
runs the body of Producer.stop, which clears running and starts waiting on
the wait group; stopWgDone is wg.Wait returning once the group count is
zero.  startRet and stopRet are blocked Do callers returning after the
body has completed elsewhere. -/
def step (s : PState) : Ev → Option PState
  | Ev.startCall i =>
    if s.starters.get? i = some SPhase.notCalled then
      if s.startOnce = OncePhase.idle then
        some { s with running := true, startOnce := OncePhase.busy,
                      wg := s.wg + 1,
                      starters := s.starters.set i SPhase.inLoop,
                      startBodies := s.startBodies + 1 }
      else if s.startOnce = OncePhase.busy then
        some { s with starters := s.starters.set i SPhase.waitingOnce }
      else
        some { s with starters := s.starters.set i SPhase.returned }
    else none
  | Ev.startRet i =>
    if s.starters.get? i = some SPhase.waitingOnce ∧ s.startOnce = OncePhase.done then
      some { s with starters := s.starters.set i SPhase.returned }
    else none
  | Ev.loopIterate i =>
    if s.starters.get? i = some SPhase.inLoop ∧ s.running = true then
      some s
    else none
  | Ev.loopExit i =>
    if s.starters.get? i = some SPhase.inLoop ∧ s.running = false then
      some { s with wg := s.wg - 1, startOnce := OncePhase.done,
                    starters := s.starters.set i SPhase.returned }
    else none
  | Ev.stopCall i =>
    if s.stoppers.get? i = some TPhase.notCalled then
      if s.stopOnce = OncePhase.idle then
        some { s with running := false, stopOnce := OncePhase.busy,
                      stoppers := s.stoppers.set i TPhase.waitingWg,
                      stopBodies := s.stopBodies + 1 }
      else if s.stopOnce = OncePhase.busy then
        some { s with stoppers := s.stoppers.set i TPhase.waitingOnce }
      else
        some { s with stoppers := s.stoppers.set i TPhase.returned }
    else none
  | Ev.stopRet i =>
    if s.stoppers.get? i = some TPhase.waitingOnce ∧ s.stopOnce = OncePhase.done then
      some { s with stoppers := s.stoppers.set i TPhase.returned }
    else none
  | Ev.stopWgDone i =>
    if s.stoppers.get? i = some TPhase.waitingWg ∧ s.wg = 0 then
      some { s with stopOnce := OncePhase.done,
                    stoppers := s.stoppers.set i TPhase.returned }
    else none

/-- Run a sequence of events from a state; an event that is not enabled
aborts the run. -/
def run (s : PState) : List Ev → Option PState
  | [] => some s
  | e :: rest =>
    match step s e with
    | some s2 => run s2 rest
    | none => none

/-- Initial state of a fresh Producer (NewProducer) with ns threads that
will call Start and nt threads that will call Stop. -/
def initState (ns nt : Nat) : PState :=
  { running := false, startOnce := OncePhase.idle, stopOnce := OncePhase.idle,
    wg := 0,
    starters := List.replicate ns SPhase.notCalled,
    stoppers := List.replicate nt TPhase.notCalled,
    startBodies := 0, stopBodies := 0 }

/-- State in which Start has been called and the publish loop is running:
thread 0 executes the loop inside startOnce (which is therefore busy), ns
further Start callers and nt Stop callers have not called yet. -/
def S0 (ns nt : Nat) : PState :=
  { running := true, startOnce := OncePhase.busy, stopOnce := OncePhase.idle,
    wg := 1,
    starters := SPhase.inLoop :: List.replicate ns SPhase.notCalled,
    stoppers := List.replicate nt TPhase.notCalled,
    startBodies := 1, stopBodies := 0 }

/-! Storage backend selection of the consumer command
(cli/borges/consumer.go, consumerSubcmd.newRootedTransactioner). -/

/-- Embedding of Go strings.HasPrefix, computed on the character lists of
the strings. -/
def hasPrefix (pre s : String) : Bool := pre.data.isPrefixOf s.data

/-- Splits a character list at its first slash: the part before the slash
and the remainder starting with the slash (or empty when no slash). -/
def splitAtSlash : List Char → List Char × List Char
  | [] => ([], [])
  | c :: cs =>
    if c = '/' then ([], c :: cs)
    else
      let p := splitAtSlash cs
      (c :: p.1, p.2)

/-- Model of the net/url.Parse usage in the hdfs branch: the URL is split
into the scheme-and-authority part (what u.String() yields after u.Path
is cleared) and the path part u.Path.  Only the shape relevant to
hdfs:// URLs is modelled: everything up to the first slash after the
scheme separator belongs to the authority. -/
def splitURLPath (s : String) : String × String :=
  let rest := s.data.drop 7
  let p := splitAtSlash rest
  (String.mk ("hdfs://".data ++ p.1), String.mk p.2)

/-- Configuration fields of consumerSubcmd used by
newRootedTransactioner. -/
structure ConsumerConfig where
  rootRepositoriesDir : String
  rootRepositoriesTempDir : String
  bucketSize : Nat
deriving DecidableEq, Repr

/-- The remote filesystem handed to the copier: either the HDFS-backed
filesystem (repository.NewHDFSFs with the URL, its path and the temporary
directory) or the local filesystem rooted at a directory
(repository.NewLocalFs of osfs.New of the configured directory). -/
inductive RemoteFs where
  | hdfs (url : String) (path : String) (tempDir : String)
  | localFs (dir : String)
deriving DecidableEq, Repr

/-- Whether the selected backend is the HDFS one. -/
def RemoteFs.isHdfs : RemoteFs → Bool
  | RemoteFs.hdfs _ _ _ => true
  | RemoteFs.localFs _ => false

/-- The copier constructed by repository.NewCopier: the chrooted local
temporary filesystem, the selected remote filesystem and the bucket
size. -/
structure Copier where
  tmp : String
  remote : RemoteFs
  bucketSize : Nat
deriving DecidableEq, Repr

/-- The transactioner built by repository.NewSivaRootedTransactioner: it
holds exactly one copier, hence exactly one remote backend, for its whole
lifetime. -/
structure SivaRootedTransactioner where
  copier : Copier
deriving DecidableEq, Repr

/-- Embedding of consumerSubcmd.newRootedTransactioner: chroot the
temporary filesystem to transactioner, then select the remote backend
once: if RootRepositoriesDir has prefix hdfs:// parse it as a URL and
build the HDFS filesystem from the pathless URL, the path and
RootRepositoriesTempDir; otherwise build the local filesystem rooted at
RootRepositoriesDir.  Errors of the collaborators (chroot, url.Parse)
propagate through the Except; the modelled collaborators are total. -/
def newRootedTransactioner (c : ConsumerConfig) (tmp : String) :
    Except Err SivaRootedTransactioner :=
  let tmp2 := tmp ++ "/transactioner"
  let remote : RemoteFs :=
    if hasPrefix "hdfs://" c.rootRepositoriesDir then
      let p := splitURLPath c.rootRepositoriesDir
      RemoteFs.hdfs p.1 p.2 c.rootRepositoriesTempDir
    else
      RemoteFs.localFs c.rootRepositoriesDir
  Except.ok (SivaRootedTransactioner.mk (Copier.mk tmp2 remote c.bucketSize))

/-! Locking service.

Modelled from the spec: the lock package of this repository (imported by
cli/borges/consumer.go as lock.New and passed to the archiver worker
pool) is not among the sources; its contract is modelled from the spec:
Acquire of a key yields a LockHandle only when no handle for that key is
held anywhere in the fleet, acquisition on a held key fails without state
change, Release frees the key, and TTL expiry of a dead holder frees the
key.  At most one LockHandle per key may exist at any instant. -/

/-- Lock keys; the consumer derives them from the job's repositoryID. -/
abbrev LockKey := String

/-- Fleet-wide state of the locking service: the held handles (key paired
with handle identifier) and a counter for fresh handle identifiers. -/
structure LockState where
  held : List (LockKey × Nat)
  nextHandle : Nat
deriving DecidableEq, Repr

/-- Handles currently held on a key. -/
def heldOn (s : LockState) (k : LockKey) : List (LockKey × Nat) :=
  s.held.filter (fun p => p.1 = k)

/-- Events of the locking service. -/
inductive LockEv where
  | acquire (k : LockKey)
  | acquireFail (k : LockKey)
  | release (k : LockKey) (h : Nat)
  | expire (k : LockKey) (h : Nat)
deriving DecidableEq, Repr

/-- Transition function of the locking service.  acquire succeeds only on
a free key and creates a fresh handle; acquireFail is the error return on
a held key and changes nothing; release and TTL expiry both remove an
existing handle. -/
def lockStep (s : LockState) : LockEv → Option LockState
  | LockEv.acquire k =>
    if heldOn s k = [] then
      some (LockState.mk ((k, s.nextHandle) :: s.held) (s.nextHandle + 1))
    else none
  | LockEv.acquireFail k =>
    if heldOn s k = [] then none else some s
  | LockEv.release k h =>
    if (k, h) ∈ s.held then some (LockState.mk (s.held.erase (k, h)) s.nextHandle)
    else none
  | LockEv.expire k h =>
    if (k, h) ∈ s.held then some (LockState.mk (s.held.erase (k, h)) s.nextHandle)
    else none

/-- Run a sequence of lock events. -/
def lockRun (s : LockState) : List LockEv → Option LockState
  | [] => some s
  | e :: rest =>
    match lockStep s e with
    | some s2 => lockRun s2 rest
    | none => none

/-- Initial state of the locking service: nothing held. -/
def lockInit : LockState := LockState.mk [] 0

/-! Invariants and concrete runs used by the lifecycle theorems. -/

/-- Inductive invariant of the lifecycle system for executions that begin
in a state where the publish loop is already running (S0): the start once
has been entered; the running flag mirrors whether the stop body has run;
once the stop once is done the wait group is empty; a Stop caller only
returns after the stop once is done; the stop body runs at most once; and
the loop thread is thread 0, whose membership in the loop mirrors the
wait group counter. -/
structure InvS0 (s : PState) : Prop where
  hA : s.startOnce ≠ OncePhase.idle
  hB : s.stopOnce ≠ OncePhase.idle → s.running = false
  hB2 : s.stopOnce = OncePhase.idle → s.running = true
  hE : s.stopOnce = OncePhase.done → s.wg = 0
  hF : TPhase.returned ∈ s.stoppers → s.stopOnce = OncePhase.done
  hG : s.stopBodies = if s.stopOnce = OncePhase.idle then 0 else 1
  hH : TPhase.waitingWg ∈ s.stoppers → s.stopOnce ≠ OncePhase.idle
  hK : ∀ i, i ≠ 0 → s.starters.get? i ≠ some SPhase.inLoop
  hL : (s.wg = 1 ∧ s.starters.get? 0 = some SPhase.inLoop) ∨
       (s.wg = 0 ∧ s.starters.get? 0 ≠ some SPhase.inLoop)

/-- Inductive invariant of the lifecycle system for executions that begin
in the initial state of a fresh Producer: the start body runs at most
once, and at most one thread is ever inside the publish loop, in step
with the wait group counter. -/
structure InvInit (s : PState) : Prop where
  mM : s.startBodies = if s.startOnce = OncePhase.idle then 0 else 1
  mN : s.startOnce = OncePhase.idle →
       s.wg = 0 ∧ ∀ i, s.starters.get? i ≠ some SPhase.inLoop
  mQ : (s.wg = 0 ∧ ∀ i, s.starters.get? i ≠ some SPhase.inLoop) ∨
       (s.wg = 1 ∧ ∃ i0, s.starters.get? i0 = some SPhase.inLoop ∧
          ∀ j, j ≠ i0 → s.starters.get? j ≠ some SPhase.inLoop)

/-- Invariant of the locking service: at most one handle per key — any
two handles held on the same key are the same handle. -/
def LockInv (s : LockState) : Prop :=
  ∀ k a b, (k, a) ∈ s.held → (k, b) ∈ s.held → a = b

/-- Concrete event sequence: one Stop call against a running loop. -/
def evsC1 : List Ev := [Ev.stopCall 0, Ev.loopExit 0, Ev.stopWgDone 0]

/-- Final state of evsC1 from S0 0 1. -/
def stC1 : PState :=
  { running := false, startOnce := OncePhase.done, stopOnce := OncePhase.done,
    wg := 0, starters := [SPhase.returned], stoppers := [TPhase.returned],
    startBodies := 1, stopBodies := 1 }

/-- Concrete event sequence from a fresh Producer: Stop runs to completion
before Start is called, then Start runs, then a second Stop call returns
immediately while the loop keeps iterating. -/
def evsC2 : List Ev :=
  [Ev.stopCall 0, Ev.stopWgDone 0, Ev.startCall 0, Ev.stopCall 1,
   Ev.loopIterate 0]

/-- Final state of evsC2 from initState 1 2: both Stop calls have
returned, yet the producer is running and its stop guard is consumed. -/
def stC2 : PState :=
  { running := true, startOnce := OncePhase.busy, stopOnce := OncePhase.done,
    wg := 1, starters := [SPhase.inLoop],
    stoppers := [TPhase.returned, TPhase.returned],
    startBodies := 1, stopBodies := 1 }

/-- State reached from initState 2 1 after one Start call: the loop runs,
a second Start caller has not called yet. -/
def stC6 : PState :=
  { running := true, startOnce := OncePhase.busy, stopOnce := OncePhase.idle,
    wg := 1, starters := [SPhase.inLoop, SPhase.notCalled],
    stoppers := [TPhase.notCalled], startBodies := 1, stopBodies := 0 }

/-- Concrete consumer configuration with an hdfs root directory. -/
def cfgHdfs : ConsumerConfig :=
  ConsumerConfig.mk "hdfs://namenode:8020/borges" "/tmp/cp" 2

/-- Transactioner built from cfgHdfs. -/
def txHdfs : SivaRootedTransactioner :=
  SivaRootedTransactioner.mk
    (Copier.mk "/tmp/x/transactioner"
      (RemoteFs.hdfs "hdfs://namenode:8020" "/borges" "/tmp/cp") 2)

/-- Concrete lock event sequence on one key: acquire, a failing second
acquire, release, acquire again. -/
def evsC8 : List LockEv :=
  [LockEv.acquire "repo:1", LockEv.acquireFail "repo:1",
   LockEv.release "repo:1" 0, LockEv.acquire "repo:1"]

/-- Final lock state of evsC8. -/
def stC8 : LockState := LockState.mk [("repo:1", 1)] 2

/-! Theorems. -/

/-- Helper: reading any position of a list after set, when the set
position exists. -/
theorem get?_set_cases {α : Type} (l : List α) (i j : Nat) (v a : α)
    (hi : l.get? i = some a) :
    (l.set i v).get? j = if i = j then some v else l.get? j := by
  by_cases h : i = j
  · subst h
    rw [List.get?_set_eq, hi, if_pos rfl]
    rfl
  · rw [List.get?_set_ne v l h, if_neg h]

/-- Helper: two members of a list of length at most one are equal. -/
theorem mem_eq_of_length_le_one {α : Type} {l : List α} (hlen : l.length ≤ 1)
    {a b : α} (ha : a ∈ l) (hb : b ∈ l) : a = b := by
  match l, ha with
  | [x], ha =>
    have ha2 : a = x := List.mem_singleton.mp ha
    have hb2 : b = x := List.mem_singleton.mp hb
    rw [ha2, hb2]

/-- C3 (code evaluation at the failing input): in producer.go an iteration
of the publish loop in which obtaining the next job returns a non-nil
error performs no notification at all: the Notifiers record has no
QueueError field and the error branch of Producer.start is a bare
continue, so the iteration produces no action whatsoever. -/
theorem source_error_branch_performs_no_notification
    (dp : Bool) (e : Err) (enc pub : Option Err) :
    loopIter dp (Except.error e) enc pub = [] := rfl

/-- C5: for every job pulled from the source, if encode fails the Done
notifier is invoked with the encode error and the job is not published;
if encode succeeds and publish fails the Done notifier is invoked with
the publish error; if both succeed exactly one Done invocation with a nil
error happens. -/
theorem publish_loop_done_notifications (j : Job) (e : Err) (pub : Option Err) :
    loopIter true (Except.ok j) (some e) pub
      = [Action.encode j, Action.done j (some e)] ∧
    loopIter true (Except.ok j) none (some e)
      = [Action.encode j, Action.publish j, Action.done j (some e)] ∧
    loopIter true (Except.ok j) none none
      = [Action.encode j, Action.publish j, Action.done j none] ∧
    (loopIter true (Except.ok j) none none).countP Action.isDoneCall = 1 ∧
    Action.publish j ∉ loopIter true (Except.ok j) (some e) pub := by
  refine ⟨rfl, rfl, rfl, rfl, ?_⟩
  simp [loopIter, notifyDone]

/-- C9: the Done notifier is optional; when absent, notifyDone is a no-op
and the iteration behaves identically apart from the missing Done calls;
when present, it is invoked with exactly the job and its error. -/
theorem done_notifier_optional_noop (src : Except Err Job)
    (enc pub : Option Err) (j : Job) (e : Option Err) :
    notifyDone false j e = [] ∧
    notifyDone true j e = [Action.done j e] ∧
    loopIter false src enc pub
      = (loopIter true src enc pub).filter (fun a => !a.isDoneCall) := by
  refine ⟨rfl, rfl, ?_⟩
  cases src with
  | error e2 => rfl
  | ok j2 =>
    cases enc with
    | some e2 => simp [loopIter, notifyDone, Action.isDoneCall]
    | none =>
      cases pub with
      | some e2 => simp [loopIter, notifyDone, Action.isDoneCall]
      | none => simp [loopIter, notifyDone, Action.isDoneCall]

/-- C10: Producer.next never returns an error; the returned Job carries
the incremented counter as its RepositoryID, and while the uint64 counter
does not wrap the identifiers of successive calls are strictly
increasing. -/
theorem producer_next_total_and_increasing (n : Nat) :
    (next n).2 = Except.ok (Job.mk ((n + 1) % U64)) ∧
    (next n).1 = (n + 1) % U64 ∧
    (n + 1 < U64 → (next n).1 = n + 1 ∧ n < (next n).1) := by
  refine ⟨rfl, rfl, fun h => ?_⟩
  have h2 : (n + 1) % U64 = n + 1 := Nat.mod_eq_of_lt h
  constructor
  · show (n + 1) % U64 = n + 1
    exact h2
  · show n < (n + 1) % U64
    rw [h2]
    exact Nat.lt_succ_self n

/-- Witness for C10 at the concrete counter value 5. -/
theorem producer_next_total_and_increasing_witness :
    5 + 1 < U64 ∧ (next 5).1 = 5 + 1 ∧ 5 < (next 5).1 :=
  ⟨by decide, (producer_next_total_and_increasing 5).2.2 (by decide)⟩

/-- C7: the consumer command selects the storage backend exactly once at
construction: newRootedTransactioner yields an HDFS remote filesystem if
and only if RootRepositoriesDir has the prefix hdfs://, and otherwise the
local filesystem rooted at that directory; the transactioner holds that
single backend in its one copier. -/
theorem consumer_backend_selection (c : ConsumerConfig) (tmp : String)
    (t : SivaRootedTransactioner)
    (h : newRootedTransactioner c tmp = Except.ok t) :
    t.copier.remote.isHdfs = hasPrefix "hdfs://" c.rootRepositoriesDir ∧
    (hasPrefix "hdfs://" c.rootRepositoriesDir = false →
      t.copier.remote = RemoteFs.localFs c.rootRepositoriesDir) := by
  simp only [newRootedTransactioner] at h
  injection h with h2
  subst h2
  cases hp : hasPrefix "hdfs://" c.rootRepositoriesDir
  · simp [hp, RemoteFs.isHdfs]
  · simp [hp, RemoteFs.isHdfs]

/-- Witness for C7 at a concrete hdfs configuration. -/
theorem consumer_backend_selection_witness :
    newRootedTransactioner cfgHdfs "/tmp/x" = Except.ok txHdfs ∧
    txHdfs.copier.remote.isHdfs = hasPrefix "hdfs://" cfgHdfs.rootRepositoriesDir ∧
    (hasPrefix "hdfs://" cfgHdfs.rootRepositoriesDir = false →
      txHdfs.copier.remote = RemoteFs.localFs cfgHdfs.rootRepositoriesDir) :=
  ⟨rfl, (consumer_backend_selection cfgHdfs "/tmp/x" txHdfs rfl).1,
    (consumer_backend_selection cfgHdfs "/tmp/x" txHdfs rfl).2⟩

/-- Helper: InvS0 is preserved when a starter thread is reassigned a
phase other than inLoop. -/
theorem invS0_starters_set (s : PState) (i : Nat) (v a : SPhase)
    (hi : s.starters.get? i = some a) (ha : a ≠ SPhase.inLoop)
    (hv : v ≠ SPhase.inLoop) (hinv : InvS0 s) :
    InvS0 { s with starters := s.starters.set i v } := by
  obtain ⟨hA, hB, hB2, hE, hF, hG, hH, hK, hL⟩ := hinv
  refine ⟨hA, hB, hB2, hE, hF, hG, hH, ?_, ?_⟩
  · intro j hj
    rw [get?_set_cases s.starters i j v a hi]
    by_cases hij : i = j
    · rw [if_pos hij]
      intro hc
      exact hv (Option.some.inj hc)
    · rw [if_neg hij]
      exact hK j hj
  · have hz := get?_set_cases s.starters i 0 v a hi
    by_cases hi0 : i = 0
    · rw [if_pos hi0] at hz
      rcases hL with ⟨hw, hget⟩ | ⟨hw, hget⟩
      · rw [hi0] at hi
        rw [hi] at hget
        exact absurd (Option.some.inj hget) ha
      · refine Or.inr ⟨hw, ?_⟩
        rw [hz]
        intro hc
        exact hv (Option.some.inj hc)
    · rw [if_neg hi0] at hz
      rcases hL with ⟨hw, hget⟩ | ⟨hw, hget⟩
      · exact Or.inl ⟨hw, by rw [hz]; exact hget⟩
      · exact Or.inr ⟨hw, by rw [hz]; exact hget⟩

/-- Helper: InvS0 is preserved when a stopper thread is reassigned, as
long as the new phase is compatible with the stop once. -/
theorem invS0_stoppers_set (s : PState) (i : Nat) (v a : TPhase)
    (_hi : s.stoppers.get? i = some a)
    (hret : v = TPhase.returned → s.stopOnce = OncePhase.done)
    (hwg2 : v = TPhase.waitingWg → s.stopOnce ≠ OncePhase.idle)
    (hinv : InvS0 s) :
    InvS0 { s with stoppers := s.stoppers.set i v } := by
  obtain ⟨hA, hB, hB2, hE, hF, hG, hH, hK, hL⟩ := hinv
  refine ⟨hA, hB, hB2, hE, ?_, hG, ?_, hK, hL⟩
  · intro hmem
    rcases List.mem_or_eq_of_mem_set hmem with hmem2 | heq
    · exact hF hmem2
    · exact hret heq.symm
  · intro hmem
    rcases List.mem_or_eq_of_mem_set hmem with hmem2 | heq
    · exact hH hmem2
    · exact hwg2 heq.symm

/-- Helper: InvS0 is preserved by every enabled step. -/
theorem invS0_step (s s' : PState) (e : Ev) (hinv : InvS0 s)
    (hstep : step s e = some s') : InvS0 s' := by
  cases e with
  | startCall i =>
    simp only [step] at hstep
    split_ifs at hstep with h1 h2 h3
    · exact absurd h2 hinv.hA
    · injection hstep with hs
      subst hs
      exact invS0_starters_set s i SPhase.waitingOnce SPhase.notCalled h1
        (by decide) (by decide) hinv
    · injection hstep with hs
      subst hs
      exact invS0_starters_set s i SPhase.returned SPhase.notCalled h1
        (by decide) (by decide) hinv
  | startRet i =>
    simp only [step] at hstep
    split_ifs at hstep with h1
    · injection hstep with hs
      subst hs
      exact invS0_starters_set s i SPhase.returned SPhase.waitingOnce h1.1
        (by decide) (by decide) hinv
  | loopIterate i =>
    simp only [step] at hstep
    split_ifs at hstep with h1
    · injection hstep with hs
      subst hs
      exact hinv
  | loopExit i =>
    simp only [step] at hstep
    split_ifs at hstep with h1
    · injection hstep with hs
      subst hs
      obtain ⟨hA, hB, hB2, hE, hF, hG, hH, hK, hL⟩ := hinv
      have hi0 : i = 0 := by
        by_contra hne
        exact hK i hne h1.1
      subst hi0
      rcases hL with ⟨hw, hget⟩ | ⟨hw, hget⟩
      · refine ⟨fun hc => OncePhase.noConfusion hc, hB, ?_, ?_, hF, hG, hH, ?_, ?_⟩
        · intro hidle
          have := hB2 hidle
          rw [h1.2] at this
          exact Bool.noConfusion this
        · intro _
          rw [hw]
        · intro j hj
          rw [get?_set_cases s.starters 0 j SPhase.returned SPhase.inLoop h1.1,
            if_neg (fun hh => hj hh.symm)]
          exact hK j hj
        · refine Or.inr ⟨by rw [hw], ?_⟩
          rw [get?_set_cases s.starters 0 0 SPhase.returned SPhase.inLoop h1.1,
            if_pos rfl]
          intro hc
          exact SPhase.noConfusion (Option.some.inj hc)
      · exact absurd h1.1 hget
  | stopCall i =>
    simp only [step] at hstep
    split_ifs at hstep with h1 h2 h3
    · -- the stop body runs: clear running, enter waitingWg
      injection hstep with hs
      subst hs
      obtain ⟨hA, hB, hB2, hE, hF, hG, hH, hK, hL⟩ := hinv
      refine ⟨hA, fun _ => rfl, ?_, ?_, ?_, ?_, ?_, hK, hL⟩
      · intro hc
        exact OncePhase.noConfusion hc
      · intro hc
        exact OncePhase.noConfusion hc
      · intro hmem
        rcases List.mem_or_eq_of_mem_set hmem with hmem2 | heq
        · have := hF hmem2
          rw [h2] at this
          exact OncePhase.noConfusion this
        · exact TPhase.noConfusion heq
      · show s.stopBodies + 1 = if OncePhase.busy = OncePhase.idle then 0 else 1
        rw [if_neg (fun hc => OncePhase.noConfusion hc), hG, if_pos h2]
      · intro _ hc
        exact OncePhase.noConfusion hc
    · injection hstep with hs
      subst hs
      refine invS0_stoppers_set s i TPhase.waitingOnce TPhase.notCalled h1
        (fun hc => TPhase.noConfusion hc) (fun hc => TPhase.noConfusion hc) hinv
    · injection hstep with hs
      subst hs
      have hdone : s.stopOnce = OncePhase.done := by
        cases hso : s.stopOnce
        · exact absurd hso h2
        · exact absurd hso h3
        · rfl
      refine invS0_stoppers_set s i TPhase.returned TPhase.notCalled h1
        (fun _ => hdone) (fun hc => TPhase.noConfusion hc) hinv
  | stopRet i =>
    simp only [step] at hstep
    split_ifs at hstep with h1
    · injection hstep with hs
      subst hs
      exact invS0_stoppers_set s i TPhase.returned TPhase.waitingOnce h1.1
        (fun _ => h1.2) (fun hc => TPhase.noConfusion hc) hinv
  | stopWgDone i =>
    simp only [step] at hstep
    split_ifs at hstep with h1
    · injection hstep with hs
      subst hs
      obtain ⟨hA, hB, hB2, hE, hF, hG, hH, hK, hL⟩ := hinv
      have hne : s.stopOnce ≠ OncePhase.idle := hH (List.get?_mem h1.1)
      refine ⟨hA, fun _ => hB hne, ?_, fun _ => h1.2, fun _ => rfl, ?_, ?_, hK, hL⟩
      · intro hc
        exact OncePhase.noConfusion hc
      · show s.stopBodies = if OncePhase.done = OncePhase.idle then 0 else 1
        rw [if_neg (fun hc => OncePhase.noConfusion hc), hG, if_neg hne]
      · intro _ hc
        exact OncePhase.noConfusion hc

/-- Helper: InvS0 holds along every run. -/
theorem invS0_run (evs : List Ev) :
    ∀ s s' : PState, InvS0 s → run s evs = some s' → InvS0 s' := by
  induction evs with
  | nil =>
    intro s s' h hrun
    simp only [run] at hrun
    injection hrun with h2
    subst h2
    exact h
  | cons e rest ih =>
    intro s s' h hrun
    simp only [run] at hrun
    cases hstep : step s e with
    | none =>
      rw [hstep] at hrun
      exact Option.noConfusion hrun
    | some s2 =>
      rw [hstep] at hrun
      exact ih s2 s' (invS0_step s s2 e h hstep) hrun

/-- Helper: InvS0 holds in the loop-running state S0. -/
theorem invS0_S0 (ns nt : Nat) : InvS0 (S0 ns nt) := by
  refine ⟨fun hc => OncePhase.noConfusion hc, ?_, fun _ => rfl, ?_, ?_, rfl,
    ?_, ?_, Or.inl ⟨rfl, rfl⟩⟩
  · intro hc
    exact absurd rfl hc
  · intro hc
    exact OncePhase.noConfusion hc
  · intro hmem
    have := List.eq_of_mem_replicate hmem
    exact TPhase.noConfusion this
  · intro hmem
    have := List.eq_of_mem_replicate hmem
    exact TPhase.noConfusion this
  · intro i hi hget
    cases i with
    | zero => exact absurd rfl hi
    | succ j =>
      simp only [S0, List.get?] at hget
      have := List.eq_of_mem_replicate (List.get?_mem hget)
      exact SPhase.noConfusion this

/-- C1: when the publish loop is running and Stop is called any number of
times by any interleaving of threads, every Stop call that has returned
implies: the producer is no longer running, the wait group is empty, no
thread remains inside the publish loop, and the stop body (the single
transition of the running flag to false) has executed exactly once. -/
theorem producer_stop_idempotent_blocks_until_loop_exit
    (ns nt : Nat) (evs : List Ev) (s' : PState)
    (hrun : run (S0 ns nt) evs = some s')
    (hret : TPhase.returned ∈ s'.stoppers) :
    IsRunning s' = false ∧ s'.wg = 0 ∧ SPhase.inLoop ∉ s'.starters ∧
    s'.stopBodies = 1 := by
  obtain ⟨hA, hB, hB2, hE, hF, hG, hH, hK, hL⟩ :=
    invS0_run evs (S0 ns nt) s' (invS0_S0 ns nt) hrun
  have hdone := hF hret
  have hne : s'.stopOnce ≠ OncePhase.idle := by
    rw [hdone]
    intro hc
    exact OncePhase.noConfusion hc
  have hwg0 := hE hdone
  refine ⟨hB hne, hwg0, ?_, by rw [hG, if_neg hne]⟩
  intro hmem
  obtain ⟨n, hn⟩ := List.mem_iff_get?.mp hmem
  cases n with
  | zero =>
    rcases hL with ⟨hw, _⟩ | ⟨_, hget⟩
    · rw [hwg0] at hw
      exact Nat.noConfusion hw
    · exact hget hn
  | succ j => exact hK (j + 1) (Nat.succ_ne_zero j) hn

/-- Witness for C1: one Stop call against the running loop of S0 0 1. -/
theorem producer_stop_idempotent_witness :
    run (S0 0 1) evsC1 = some stC1 ∧ TPhase.returned ∈ stC1.stoppers ∧
    (IsRunning stC1 = false ∧ stC1.wg = 0 ∧ SPhase.inLoop ∉ stC1.starters ∧
      stC1.stopBodies = 1) :=
  ⟨by decide, by decide,
    producer_stop_idempotent_blocks_until_loop_exit 0 1 evsC1 stC1
      (by decide) (by decide)⟩

/-- C2 counterexample: a concrete execution of a fresh Producer in which
Stop runs to completion before Start, Start then begins, and a second
Stop call also returns: every Stop call has returned, yet IsRunning is
true, refuting that after all calls return the producer is not running. -/
theorem stop_before_start_counterexample :
    run (initState 1 2) evsC2 = some stC2 ∧
    stC2.stoppers = [TPhase.returned, TPhase.returned] ∧
    IsRunning stC2 = true :=
  ⟨by decide, by decide, by decide⟩

/-- Helper: once the stop guard is consumed while the producer runs,
every step keeps the producer running. -/
theorem stopdone_running_step (s s' : PState) (e : Ev)
    (hd : s.stopOnce = OncePhase.done) (hr : s.running = true)
    (hstep : step s e = some s') :
    s'.stopOnce = OncePhase.done ∧ s'.running = true := by
  cases e with
  | startCall i =>
    simp only [step] at hstep
    split_ifs at hstep with h1 h2 h3
    · injection hstep with hs
      subst hs
      exact ⟨hd, rfl⟩
    · injection hstep with hs
      subst hs
      exact ⟨hd, hr⟩
    · injection hstep with hs
      subst hs
      exact ⟨hd, hr⟩
  | startRet i =>
    simp only [step] at hstep
    split_ifs at hstep with h1
    · injection hstep with hs
      subst hs
      exact ⟨hd, hr⟩
  | loopIterate i =>
    simp only [step] at hstep
    split_ifs at hstep with h1
    · injection hstep with hs
      subst hs
      exact ⟨hd, hr⟩
  | loopExit i =>
    simp only [step] at hstep
    split_ifs at hstep with h1
    · rw [hr] at h1
      exact Bool.noConfusion h1.2
  | stopCall i =>
    simp only [step] at hstep
    split_ifs at hstep with h1 h2 h3
    · rw [hd] at h2
      exact OncePhase.noConfusion h2
    · rw [hd] at h3
      exact OncePhase.noConfusion h3
    · injection hstep with hs
      subst hs
      exact ⟨hd, hr⟩
  | stopRet i =>
    simp only [step] at hstep
    split_ifs at hstep with h1
    · injection hstep with hs
      subst hs
      exact ⟨hd, hr⟩
  | stopWgDone i =>
    simp only [step] at hstep
    split_ifs at hstep with h1
    · injection hstep with hs
      subst hs
      exact ⟨rfl, hr⟩

/-- C2 amended: calling Stop before Start is not safe.  Once the stop
body has completed (the one-time stop guard is consumed) while the
producer is running — which is exactly what a Stop that returns before
Start begins produces once Start's body then runs — no sequence of
further events, including any number of additional Stop calls, ever
makes IsRunning false: the publish loop can never be stopped. -/
theorem producer_stop_before_start_unsafe (s : PState)
    (hd : s.stopOnce = OncePhase.done) (hr : s.running = true)
    (evs : List Ev) (s' : PState) (hrun : run s evs = some s') :
    IsRunning s' = true ∧ s'.stopOnce = OncePhase.done := by
  induction evs generalizing s with
  | nil =>
    simp only [run] at hrun
    injection hrun with h2
    subst h2
    exact ⟨hr, hd⟩
  | cons e rest ih =>
    simp only [run] at hrun
    cases hstep : step s e with
    | none =>
      rw [hstep] at hrun
      exact Option.noConfusion hrun
    | some s2 =>
      rw [hstep] at hrun
      obtain ⟨hd2, hr2⟩ := stopdone_running_step s s2 e hd hr hstep
      exact ih s2 hd2 hr2 hrun

/-- Witness for the amended C2 at the concrete bug state stC2. -/
theorem producer_stop_before_start_unsafe_witness :
    stC2.stopOnce = OncePhase.done ∧ stC2.running = true ∧
    run stC2 [Ev.loopIterate 0] = some stC2 ∧
    (IsRunning stC2 = true ∧ stC2.stopOnce = OncePhase.done) :=
  ⟨by decide, by decide, by decide,
    producer_stop_before_start_unsafe stC2 (by decide) (by decide)
      [Ev.loopIterate 0] stC2 (by decide)⟩

/-- C4: a source error is never fatal: the iteration performs no encode,
publish or Done notification, and the producer remains running in every
execution from the running state in which the stop body has not executed. -/
theorem source_error_not_fatal :
    (∀ dp e enc pub, loopIter dp (Except.error e) enc pub = ([] : List Action)) ∧
    (∀ ns nt evs s', run (S0 ns nt) evs = some s' → s'.stopBodies = 0 →
      IsRunning s' = true) := by
  refine ⟨fun _ _ _ _ => rfl, ?_⟩
  intro ns nt evs s' hrun hsb
  obtain ⟨hA, hB, hB2, hE, hF, hG, hH, hK, hL⟩ :=
    invS0_run evs (S0 ns nt) s' (invS0_S0 ns nt) hrun
  apply hB2
  by_contra hne
  rw [hG, if_neg hne] at hsb
  exact Nat.noConfusion hsb

/-- Witness for C4: a concrete failing iteration and a concrete run in
which Stop has not been called. -/
theorem source_error_not_fatal_witness :
    loopIter true (Except.error "boom") none none = ([] : List Action) ∧
    (run (S0 0 1) [Ev.loopIterate 0] = some (S0 0 1) ∧
      (S0 0 1).stopBodies = 0 ∧ IsRunning (S0 0 1) = true) :=
  ⟨source_error_not_fatal.1 true "boom" none none,
    by decide, by decide,
    source_error_not_fatal.2 0 1 [Ev.loopIterate 0] (S0 0 1)
      (by decide) (by decide)⟩

/-- Helper: the at-most-one-loop disjunct of InvInit is preserved when a
starter is reassigned a phase other than inLoop. -/
theorem invInit_starters_set (s : PState) (i : Nat) (v a : SPhase)
    (hi : s.starters.get? i = some a) (ha : a ≠ SPhase.inLoop)
    (hv : v ≠ SPhase.inLoop)
    (hQ : (s.wg = 0 ∧ ∀ j, s.starters.get? j ≠ some SPhase.inLoop) ∨
          (s.wg = 1 ∧ ∃ i0, s.starters.get? i0 = some SPhase.inLoop ∧
             ∀ j, j ≠ i0 → s.starters.get? j ≠ some SPhase.inLoop)) :
    (s.wg = 0 ∧ ∀ j, (s.starters.set i v).get? j ≠ some SPhase.inLoop) ∨
    (s.wg = 1 ∧ ∃ i0, (s.starters.set i v).get? i0 = some SPhase.inLoop ∧
       ∀ j, j ≠ i0 → (s.starters.set i v).get? j ≠ some SPhase.inLoop) := by
  rcases hQ with ⟨hw, hall⟩ | ⟨hw, i0, hi0, huniq⟩
  · refine Or.inl ⟨hw, fun j => ?_⟩
    rw [get?_set_cases s.starters i j v a hi]
    by_cases hij : i = j
    · rw [if_pos hij]
      intro hc
      exact hv (Option.some.inj hc)
    · rw [if_neg hij]
      exact hall j
  · have hii0 : i ≠ i0 := by
      intro hii
      rw [hii] at hi
      rw [hi0] at hi
      exact ha (Option.some.inj hi).symm
    refine Or.inr ⟨hw, i0, ?_, fun j hj => ?_⟩
    · rw [get?_set_cases s.starters i i0 v a hi, if_neg hii0]
      exact hi0
    · rw [get?_set_cases s.starters i j v a hi]
      by_cases hij : i = j
      · rw [if_pos hij]
        intro hc
        exact hv (Option.some.inj hc)
      · rw [if_neg hij]
        exact huniq j hj

/-- Helper: InvInit is preserved by every enabled step. -/
theorem invInit_step (s s' : PState) (e : Ev) (hinv : InvInit s)
    (hstep : step s e = some s') : InvInit s' := by
  obtain ⟨mM, mN, mQ⟩ := hinv
  cases e with
  | startCall i =>
    simp only [step] at hstep
    split_ifs at hstep with h1 h2 h3
    · injection hstep with hs
      subst hs
      obtain ⟨hw0, hall⟩ := mN h2
      refine ⟨?_, ?_, ?_⟩
      · show s.startBodies + 1 = if OncePhase.busy = OncePhase.idle then 0 else 1
        rw [if_neg (fun hc => OncePhase.noConfusion hc), mM, if_pos h2]
      · intro hidle
        exact OncePhase.noConfusion hidle
      · refine Or.inr ⟨?_, i, ?_, fun j hj => ?_⟩
        · show s.wg + 1 = 1
          rw [hw0]
        · rw [get?_set_cases s.starters i i SPhase.inLoop SPhase.notCalled h1,
            if_pos rfl]
        · rw [get?_set_cases s.starters i j SPhase.inLoop SPhase.notCalled h1,
            if_neg (fun hh => hj hh.symm)]
          exact hall j
    · injection hstep with hs
      subst hs
      exact ⟨mM, fun hidle => absurd hidle h2,
        invInit_starters_set s i SPhase.waitingOnce SPhase.notCalled h1
          (fun hc => SPhase.noConfusion hc) (fun hc => SPhase.noConfusion hc) mQ⟩
    · injection hstep with hs
      subst hs
      exact ⟨mM, fun hidle => absurd hidle h2,
        invInit_starters_set s i SPhase.returned SPhase.notCalled h1
          (fun hc => SPhase.noConfusion hc) (fun hc => SPhase.noConfusion hc) mQ⟩
  | startRet i =>
    simp only [step] at hstep
    split_ifs at hstep with h1
    · injection hstep with hs
      subst hs
      refine ⟨mM, ?_,
        invInit_starters_set s i SPhase.returned SPhase.waitingOnce h1.1
          (fun hc => SPhase.noConfusion hc) (fun hc => SPhase.noConfusion hc) mQ⟩
      intro hidle
      rw [h1.2] at hidle
      exact OncePhase.noConfusion hidle
  | loopIterate i =>
    simp only [step] at hstep
    split_ifs at hstep with h1
    · injection hstep with hs
      subst hs
      exact ⟨mM, mN, mQ⟩
  | loopExit i =>
    simp only [step] at hstep
    split_ifs at hstep with h1
    · injection hstep with hs
      subst hs
      rcases mQ with ⟨hw, hall⟩ | ⟨hw, i0, hi0, huniq⟩
      · exact absurd h1.1 (hall i)
      · have hii0 : i = i0 := by
          by_contra hne
          exact huniq i hne h1.1
        subst hii0
        have hnidle : s.startOnce ≠ OncePhase.idle := by
          intro hidle
          exact (mN hidle).2 i h1.1
        refine ⟨?_, ?_, ?_⟩
        · show s.startBodies = if OncePhase.done = OncePhase.idle then 0 else 1
          rw [if_neg (fun hc => OncePhase.noConfusion hc), mM, if_neg hnidle]
        · intro hidle
          exact OncePhase.noConfusion hidle
        · refine Or.inl ⟨?_, fun j => ?_⟩
          · show s.wg - 1 = 0
            rw [hw]
          · rw [get?_set_cases s.starters i j SPhase.returned SPhase.inLoop h1.1]
            by_cases hij : i = j
            · rw [if_pos hij]
              intro hc
              exact SPhase.noConfusion (Option.some.inj hc)
            · rw [if_neg hij]
              exact huniq j (fun hji => hij hji.symm)
  | stopCall i =>
    simp only [step] at hstep
    split_ifs at hstep with h1 h2 h3
    · injection hstep with hs
      subst hs
      exact ⟨mM, mN, mQ⟩
    · injection hstep with hs
      subst hs
      exact ⟨mM, mN, mQ⟩
    · injection hstep with hs
      subst hs
      exact ⟨mM, mN, mQ⟩
  | stopRet i =>
    simp only [step] at hstep
    split_ifs at hstep with h1
    · injection hstep with hs
      subst hs
      exact ⟨mM, mN, mQ⟩
  | stopWgDone i =>
    simp only [step] at hstep
    split_ifs at hstep with h1
    · injection hstep with hs
      subst hs
      exact ⟨mM, mN, mQ⟩

/-- Helper: InvInit holds along every run. -/
theorem invInit_run (evs : List Ev) :
    ∀ s s' : PState, InvInit s → run s evs = some s' → InvInit s' := by
  induction evs with
  | nil =>
    intro s s' h hrun
    simp only [run] at hrun
    injection hrun with h2
    subst h2
    exact h
  | cons e rest ih =>
    intro s s' h hrun
    simp only [run] at hrun
    cases hstep : step s e with
    | none =>
      rw [hstep] at hrun
      exact Option.noConfusion hrun
    | some s2 =>
      rw [hstep] at hrun
      exact ih s2 s' (invInit_step s s2 e h hstep) hrun

/-- Helper: InvInit holds in the initial state of a fresh Producer. -/
theorem invInit_initState (ns nt : Nat) : InvInit (initState ns nt) := by
  refine ⟨rfl, ?_, Or.inl ⟨rfl, fun i => ?_⟩⟩
  · intro _
    refine ⟨rfl, fun i => ?_⟩
    intro hc
    have := List.eq_of_mem_replicate (List.get?_mem hc)
    exact SPhase.noConfusion this
  · intro hc
    have := List.eq_of_mem_replicate (List.get?_mem hc)
    exact SPhase.noConfusion this

/-- C6: Start is one-shot.  In every execution of a fresh Producer the
start body runs at most once and at most one thread is in the publish
loop; moreover once the start guard has been entered, a further Start
call leaves every Producer field unchanged — it only moves the calling
thread to waitingOnce or returned, so no second loop is ever started. -/
theorem producer_start_one_shot (ns nt : Nat) (evs : List Ev) (s' : PState)
    (hrun : run (initState ns nt) evs = some s') :
    s'.startBodies ≤ 1 ∧ s'.wg ≤ 1 ∧
    (∀ i s2, s'.startOnce ≠ OncePhase.idle →
      step s' (Ev.startCall i) = some s2 →
      s2.running = s'.running ∧ s2.startOnce = s'.startOnce ∧
      s2.stopOnce = s'.stopOnce ∧ s2.wg = s'.wg ∧
      s2.startBodies = s'.startBodies ∧ s2.stopBodies = s'.stopBodies ∧
      s2.stoppers = s'.stoppers ∧
      (s2.starters.get? i = some SPhase.waitingOnce ∨
        s2.starters.get? i = some SPhase.returned) ∧
      ∀ j, j ≠ i → s2.starters.get? j = s'.starters.get? j) := by
  obtain ⟨mM, mN, mQ⟩ :=
    invInit_run evs (initState ns nt) s' (invInit_initState ns nt) hrun
  refine ⟨?_, ?_, ?_⟩
  · rw [mM]
    split_ifs
    · exact Nat.zero_le 1
    · exact Nat.le_refl 1
  · rcases mQ with ⟨hw, _⟩ | ⟨hw, _⟩
    · rw [hw]
      exact Nat.zero_le 1
    · rw [hw]
  · intro i s2 hno hstep
    simp only [step] at hstep
    split_ifs at hstep with h1 h2
    · injection hstep with hs
      subst hs
      refine ⟨rfl, rfl, rfl, rfl, rfl, rfl, rfl, Or.inl ?_, fun j hj => ?_⟩
      · rw [get?_set_cases s'.starters i i SPhase.waitingOnce SPhase.notCalled h1,
          if_pos rfl]
      · rw [get?_set_cases s'.starters i j SPhase.waitingOnce SPhase.notCalled h1,
          if_neg (fun hh => hj hh.symm)]
    · injection hstep with hs
      subst hs
      refine ⟨rfl, rfl, rfl, rfl, rfl, rfl, rfl, Or.inr ?_, fun j hj => ?_⟩
      · rw [get?_set_cases s'.starters i i SPhase.returned SPhase.notCalled h1,
          if_pos rfl]
      · rw [get?_set_cases s'.starters i j SPhase.returned SPhase.notCalled h1,
          if_neg (fun hh => hj hh.symm)]

/-- Witness for C6: one Start call from a fresh Producer. -/
theorem producer_start_one_shot_witness :
    run (initState 2 1) [Ev.startCall 0] = some stC6 ∧
    stC6.startBodies ≤ 1 ∧ stC6.wg ≤ 1 :=
  ⟨by decide,
    (producer_start_one_shot 2 1 [Ev.startCall 0] stC6 (by decide)).1,
    (producer_start_one_shot 2 1 [Ev.startCall 0] stC6 (by decide)).2.1⟩

/-- Helper: a key with no held handles has no member in the held list. -/
theorem not_mem_of_heldOn_nil (s : LockState) (k : LockKey) (b : Nat)
    (h : heldOn s k = []) : (k, b) ∉ s.held := by
  intro hmem
  have hin : (k, b) ∈ heldOn s k := by
    simp only [heldOn]
    exact List.mem_filter.mpr ⟨hmem, by simp⟩
  rw [h] at hin
  exact List.not_mem_nil _ hin

/-- Helper: LockInv is preserved by every enabled lock event. -/
theorem lockInv_step (s s' : LockState) (e : LockEv) (hinv : LockInv s)
    (hstep : lockStep s e = some s') : LockInv s' := by
  cases e with
  | acquire k =>
    simp only [lockStep] at hstep
    split_ifs at hstep with h1
    · injection hstep with hs
      subst hs
      intro k2 a b ha hb
      rcases List.mem_cons.mp ha with hah | hat
      · rcases List.mem_cons.mp hb with hbh | hbt
        · injection hah with hk1 hv1
          injection hbh with hk2 hv2
          rw [hv1, hv2]
        · injection hah with hk1 hv1
          subst hk1
          exact absurd hbt (not_mem_of_heldOn_nil s k2 b h1)
      · rcases List.mem_cons.mp hb with hbh | hbt
        · injection hbh with hk2 hv2
          subst hk2
          exact absurd hat (not_mem_of_heldOn_nil s k2 a h1)
        · exact hinv k2 a b hat hbt
  | acquireFail k =>
    simp only [lockStep] at hstep
    split_ifs at hstep with h1
    · injection hstep with hs
      subst hs
      exact hinv
  | release k h =>
    simp only [lockStep] at hstep
    split_ifs at hstep with h1
    · injection hstep with hs
      subst hs
      intro k2 a b ha hb
      exact hinv k2 a b (List.mem_of_mem_erase ha) (List.mem_of_mem_erase hb)
  | expire k h =>
    simp only [lockStep] at hstep
    split_ifs at hstep with h1
    · injection hstep with hs
      subst hs
      intro k2 a b ha hb
      exact hinv k2 a b (List.mem_of_mem_erase ha) (List.mem_of_mem_erase hb)

/-- Helper: LockInv holds along every run of the locking service. -/
theorem lockInv_run (evs : List LockEv) :
    ∀ s s' : LockState, LockInv s → lockRun s evs = some s' → LockInv s' := by
  induction evs with
  | nil =>
    intro s s' h hrun
    simp only [lockRun] at hrun
    injection hrun with h2
    subst h2
    exact h
  | cons e rest ih =>
    intro s s' h hrun
    simp only [lockRun] at hrun
    cases hstep : lockStep s e with
    | none =>
      rw [hstep] at hrun
      exact Option.noConfusion hrun
    | some s2 =>
      rw [hstep] at hrun
      exact ih s2 s' (lockInv_step s s2 e h hstep) hrun

/-- C8 (modelled from the spec): per-key mutual exclusion holds
fleet-wide.  In every state reachable by the locking service, any two
handles held on the same key are equal, so at most one LockHandle per
key exists at any instant.  Since every archival unit of work for a job
holds a handle on the key derived from its repositoryID for the unit's
whole duration, two jobs with the same repositoryID can never have their
units of work overlap in time. -/
theorem lock_mutual_exclusion (evs : List LockEv) (s' : LockState)
    (hrun : lockRun lockInit evs = some s') (k : LockKey) (a b : Nat)
    (ha : (k, a) ∈ s'.held) (hb : (k, b) ∈ s'.held) : a = b := by
  have hinv : LockInv lockInit := by
    intro k2 a2 b2 ha2 _
    exact absurd ha2 (List.not_mem_nil _)
  exact lockInv_run evs lockInit s' hinv hrun k a b ha hb

/-- Witness for C8: a run in which a key is acquired, contended, released
and re-acquired. -/
theorem lock_mutual_exclusion_witness :
    lockRun lockInit evsC8 = some stC8 ∧ ("repo:1", 1) ∈ stC8.held ∧
    (1 : Nat) = 1 :=
  ⟨by decide, by decide,
    lock_mutual_exclusion evsC8 stC8 (by decide) "repo:1" 1 1
      (by decide) (by decide)⟩

end Borges
